import Mathlib

/-!
Verification of the candle aggregator, indicator library, viewport engine and
coordinate transforms of the trading terminal (src/StatsBar.tsx and
src/CandleChart.tsx).

Modelling conventions of the shallow embedding:
* JS `number` prices are modelled as `ℚ`; timestamps (`Date.now()` values,
  always non-negative) as `ℕ`, so `Math.floor(now / pMs) * pMs` becomes
  truncating `ℕ` division `now / pMs * pMs`.
* Division by zero is total in `ℚ` (value `0`) whereas JS produces
  `NaN`/`Infinity`; the spots where this matters (indicator period `≤ 0`) are
  flagged at the definitions.  The null/non-null shape of the indicator
  outputs only depends on exact integer comparisons and is unaffected.
* `null` entries of the indicator series become `none : Option ℚ`.
* JS field name `open` is a Lean keyword, hence the field is called `open'`.
-/

namespace Trading

/-- One OHLC candle, from the `Candle` interface of src/CandleChart.tsx. -/
structure Candle where
  time : ℕ
  open' : ℚ
  high : ℚ
  low : ℚ
  close : ℚ
  deriving DecidableEq, Repr

/-- `Math.floor(now / pMs) * pMs` of `tickCandles` (src/StatsBar.tsx). -/
def bucketOf (periodMs now : ℕ) : ℕ :=
  now / periodMs * periodMs

/-- The final `arr.length > 500 ? arr.slice(-500) : arr` of `tickCandles`. -/
def trimCap (l : List Candle) : List Candle :=
  if l.length > 500 then l.drop (l.length - 500) else l

/-- The body of `tickCandles` (src/StatsBar.tsx) before the 500-cap trim:
build `arr`, then either update the last candle in place (same bucket) or push
a fresh candle whose open is the previous close (or the price itself when the
series is empty). -/
def tickCandlesRaw (candles : List Candle) (periodSec : ℕ) (newPrice : ℚ)
    (now : ℕ) : List Candle :=
  let pMs := periodSec * 1000
  let bucket := bucketOf pMs now
  match candles.getLast? with
  | some last =>
    if last.time = bucket then
      candles.dropLast ++
        [{ time := last.time, open' := last.open',
           high := max last.high newPrice, low := min last.low newPrice,
           close := newPrice }]
    else
      candles ++ [{ time := bucket, open' := last.close, high := newPrice,
                    low := newPrice, close := newPrice }]
  | none =>
      candles ++ [{ time := bucket, open' := newPrice, high := newPrice,
                    low := newPrice, close := newPrice }]

/-- `tickCandles` of src/StatsBar.tsx: one aggregation step followed by the
500-candle cap. -/
def tickCandles (candles : List Candle) (periodSec : ℕ) (newPrice : ℚ)
    (now : ℕ) : List Candle :=
  trimCap (tickCandlesRaw candles periodSec newPrice now)

/-- Repeated aggregation of a finite tick sequence (price, timestamp), the way
the `TICK` action of `appReducer` feeds `tickCandles` once per simulation
step. -/
def applyTicks (periodSec : ℕ) : List Candle → List (ℚ × ℕ) → List Candle
  | cs, [] => cs
  | cs, (price, t) :: rest =>
      applyTicks periodSec (tickCandles cs periodSec price t) rest

/-- Modelled from the spec's words for the aggregation step (the claim's
algorithm, which has no trimming): compute
`bucket = floor(timestamp / periodMs) * periodMs`; if the series is non-empty
and its last candle's time equals the bucket, return the series with only the
last candle replaced (close = price, high/low extended, open and time
unchanged); otherwise return the series with one new candle appended. -/
def tickCandlesSpec (candles : List Candle) (periodSec : ℕ) (price : ℚ)
    (timestamp : ℕ) : List Candle :=
  let periodMs := periodSec * 1000
  let bucket := timestamp / periodMs * periodMs
  match candles.getLast? with
  | some last =>
    if last.time = bucket then
      candles.set (candles.length - 1)
        { time := last.time, open' := last.open',
          high := max last.high price, low := min last.low price,
          close := price }
    else
      candles ++ [{ time := bucket, open' := last.close, high := price,
                    low := price, close := price }]
  | none =>
      candles ++ [{ time := bucket, open' := price, high := price,
                    low := price, close := price }]

/-! ### Indicator library (src/CandleChart.tsx) -/

/-- The trailing window sum `s` of `calcSMA`: `Σ_{j=i-period+1}^{i} data[j]`,
restricted to valid indices `0 ≤ j ≤ i` (for `period ≥ 1` and
`i ≥ period - 1` — the only case where the JS loop body runs in bounds — the
restriction is vacuous; for `period ≤ 0` the JS range is empty as well). -/
def windowSum (data : List ℚ) (i : ℕ) (period : ℤ) : ℚ :=
  (((List.range (i + 1)).filter fun (j : ℕ) => (i : ℤ) - period + 1 ≤ (j : ℤ)).map
    fun j => data.getD j 0).sum

/-- `calcSMA` of src/CandleChart.tsx: `null` for `i < period - 1`, else the
window mean.  (For `period ≤ 0` the JS version pushes `0/period`, i.e. `NaN`
when `period = 0`; in `ℚ` that value is `0` — still a non-`null` entry.) -/
def calcSMA (data : List ℚ) (period : ℤ) : List (Option ℚ) :=
  (List.range data.length).map fun (i : ℕ) =>
    if (i : ℤ) < period - 1 then none
    else some (windowSum data i period / (period : ℚ))

/-- The loop of `calcEMA`, recursing over the index list with the running
`ema` state (`none` models the JS `ema === null`). -/
def emaGo (data : List ℚ) (period : ℤ) (k : ℚ) :
    Option ℚ → List ℕ → List (Option ℚ)
  | _, [] => []
  | ema, i :: rest =>
    if (i : ℤ) < period - 1 then none :: emaGo data period k ema rest
    else
      let e :=
        match ema with
        | none => windowSum data i period / (period : ℚ)
        | some e0 => data.getD i 0 * k + e0 * (1 - k)
      some e :: emaGo data period k (some e) rest

/-- `calcEMA` of src/CandleChart.tsx with smoothing `k = 2/(period+1)`.
(For `period = -1` the JS `k` is `Infinity`; in `ℚ` it is `0` — the null
shape of the output is unaffected.) -/
def calcEMA (data : List ℚ) (period : ℤ) : List (Option ℚ) :=
  emaGo data period (2 / ((period : ℚ) + 1)) none (List.range data.length)

/-- `calcBollinger` of src/CandleChart.tsx, parameterized by the ambient
square-root function (JS `Math.sqrt` on floats has no exact `ℚ` counterpart;
every claim checked here is independent of its values).  Returns
`(mid, upper, lower)`. -/
def calcBollinger (sqrt : ℚ → ℚ) (data : List ℚ) (period : ℤ) (mult : ℚ) :
    List (Option ℚ) × List (Option ℚ) × List (Option ℚ) :=
  let mid := calcSMA data period
  let upper := (List.range data.length).map fun i =>
    match mid.getD i none with
    | none => none
    | some m =>
        let v := (((List.range (i + 1)).filter
            fun (j : ℕ) => (i : ℤ) - period + 1 ≤ (j : ℤ)).map
          fun j => (data.getD j 0 - m) ^ 2).sum
        some (m + mult * sqrt (v / (period : ℚ)))
  let lower := (List.range data.length).map fun i =>
    match mid.getD i none with
    | none => none
    | some m =>
        let v := (((List.range (i + 1)).filter
            fun (j : ℕ) => (i : ℤ) - period + 1 ≤ (j : ℤ)).map
          fun j => (data.getD j 0 - m) ^ 2).sum
        some (m - mult * sqrt (v / (period : ℚ)))
  (mid, upper, lower)

/-- The positive part `g = d > 0 ? d : 0` of the RSI main loop. -/
def gainOf (d : ℚ) : ℚ := if d > 0 then d else 0

/-- The negative part `l = d < 0 ? Math.abs(d) : 0` of the RSI main loop. -/
def lossOf (d : ℚ) : ℚ := if d < 0 then |d| else 0

/-- One iteration of the seeding loop of `calcRSI`:
`const d = data[i] - data[i-1]; if (d > 0) ag += d; else al += Math.abs(d)`. -/
def glStep (data : List ℚ) (p : ℚ × ℚ) (i : ℕ) : ℚ × ℚ :=
  let d := data.getD i 0 - data.getD (i - 1) 0
  if d > 0 then (p.1 + d, p.2) else (p.1, p.2 + |d|)

/-- The seeding loop of `calcRSI`: accumulate raw gain and loss sums over the
first `period` differences (`for i = 1..period`). -/
def initGL (data : List ℚ) (period : ℤ) : ℚ × ℚ :=
  (List.range' 1 period.toNat).foldl (glStep data) (0, 0)

/-- The value pushed by `calcRSI` from smoothed averages:
`rs = al === 0 ? 100 : ag / al; 100 - 100 / (1 + rs)`. -/
def rsiVal (ag al : ℚ) : ℚ :=
  let rs := if al = 0 then 100 else ag / al
  100 - 100 / (1 + rs)

/-- The main loop of `calcRSI`, recursing over the index list with the
smoothed averages as state.  (For `period < 0` the JS loop reads `data[-1]`,
producing `NaN`; here `getD` yields `0` — only reachable for `period ≤ 0`,
and only the values, never the null shape, differ.) -/
def rsiGo (data : List ℚ) (period : ℤ) : ℚ → ℚ → List ℕ → List (Option ℚ)
  | _, _, [] => []
  | ag, al, i :: rest =>
    if (i : ℤ) < period then none :: rsiGo data period ag al rest
    else if (i : ℤ) = period then
      some (rsiVal ag al) :: rsiGo data period ag al rest
    else
      let d := data.getD i 0 - data.getD (i - 1) 0
      let ag2 := (ag * ((period : ℚ) - 1) + gainOf d) / (period : ℚ)
      let al2 := (al * ((period : ℚ) - 1) + lossOf d) / (period : ℚ)
      some (rsiVal ag2 al2) :: rsiGo data period ag2 al2 rest

/-- `calcRSI` of src/CandleChart.tsx: all-`null` when
`data.length < period + 1`, otherwise Wilder smoothing seeded by the simple
means of the first `period` gains/losses. -/
def calcRSI (data : List ℚ) (period : ℤ) : List (Option ℚ) :=
  if (data.length : ℤ) < period + 1 then data.map fun _ => none
  else
    let gl := initGL data period
    rsiGo data period (gl.1 / (period : ℚ)) (gl.2 / (period : ℚ))
      (List.range data.length)

/-! ### Tick generator guard (src/StatsBar.tsx, `appReducer`, `TICK`) -/

/-- Classification of a JS `number`: a finite value, or one of
`NaN`/`Infinity`/`-Infinity` (exactly the values rejected by
`Number.isFinite`). -/
inductive JSNum where
  | fin (v : ℚ)
  | nonfinite
  deriving DecidableEq

/-- The stored price after one `TICK` step for one asset.  `candidate` models
`prev.price * (1 + shock)` as evaluated in floating point (which may be
non-finite); the guard
`if (!Number.isFinite(nextPrice) || nextPrice <= 0) nextPrice = prev.price`
keeps the previous price in the bad cases. -/
def tickPriceStep (prevPrice : ℚ) (candidate : JSNum) : ℚ :=
  match candidate with
  | .nonfinite => prevPrice
  | .fin v => if v ≤ 0 then prevPrice else v

/-! ### Viewport engine (src/CandleChart.tsx) -/

/-- `ZOOM_LEVELS` of src/CandleChart.tsx. -/
def ZOOM_LEVELS : List ℕ := [20, 30, 50, 70, 100, 140, 200]

/-- `const visibleCount = ZOOM_LEVELS[zoomIndex]`. -/
def visibleCount (zoomIndex : ℕ) : ℕ := ZOOM_LEVELS.getD zoomIndex 0

/-- `const maxOffset = Math.max(0, totalCandles - visibleCount)` (truncating
`ℕ` subtraction is exactly `max 0` of the integer difference). -/
def maxOffset (totalCandles vc : ℕ) : ℕ := totalCandles - vc

/-- `const clampedOffset = Math.min(scrollOffset, maxOffset)`; the lower bound
of the clamp is implicit since every navigation operation keeps
`scrollOffset ≥ 0` (`ℕ` here). -/
def clampedOffset (scrollOffset mo : ℕ) : ℕ := min scrollOffset mo

/-- `displayCandles`: `candles.slice(startIdx, endIdx)` with
`endIdx = totalCandles - clampedOffset`,
`startIdx = Math.max(0, endIdx - visibleCount)`. -/
def displayCandles (candles : List Candle) (vc co : ℕ) : List Candle :=
  let endIdx := candles.length - co
  let startIdx := endIdx - vc
  (candles.take endIdx).drop startIdx

/-! ### Coordinate transforms (src/CandleChart.tsx, canvas render) -/

/-- `const range = hi - lo || 1`: the JS `||` falls back to `1` exactly when
`hi - lo` is zero (or `NaN`, impossible in `ℚ`). -/
def chartRange (hi lo : ℚ) : ℚ := if hi - lo = 0 then 1 else hi - lo

/-- `priceToY` of the canvas render:
`topPad + mainChartH - ((p - lo) / range) * mainChartH`. -/
def priceToY (topPad mainChartH lo range p : ℚ) : ℚ :=
  topPad + mainChartH - (p - lo) / range * mainChartH

/-- `yToPrice` of the canvas render:
`hi - ((y - topPad) / mainChartH) * range`. -/
def yToPrice (topPad mainChartH hi range y : ℚ) : ℚ :=
  hi - (y - topPad) / mainChartH * range

/-- A fixed candle used as concrete input in witnesses and counterexamples. -/
def c0 : Candle := { time := 0, open' := 1, high := 1, low := 1, close := 1 }

/-! ### Helper lemmas -/

theorem emaGo_length (data : List ℚ) (period : ℤ) (k : ℚ) :
    ∀ (idxs : List ℕ) (e : Option ℚ), (emaGo data period k e idxs).length = idxs.length := by
  intro idxs
  induction idxs with
  | nil => intro e; rfl
  | cons i rest ih =>
      intro e
      by_cases h : (i : ℤ) < period - 1 <;> simp [emaGo, h, ih]

theorem rsiGo_length (data : List ℚ) (period : ℤ) :
    ∀ (idxs : List ℕ) (ag al : ℚ), (rsiGo data period ag al idxs).length = idxs.length := by
  intro idxs
  induction idxs with
  | nil => intro ag al; rfl
  | cons i rest ih =>
      intro ag al
      by_cases h1 : (i : ℤ) < period
      · simp [rsiGo, h1, ih]
      · by_cases h2 : (i : ℤ) = period <;> simp [rsiGo, h1, h2, ih]

theorem emaGo_all_none (data : List ℚ) (period : ℤ) (k : ℚ) :
    ∀ (idxs : List ℕ) (e : Option ℚ), (∀ i ∈ idxs, (i : ℤ) < period - 1) →
      ∀ o ∈ emaGo data period k e idxs, o = none := by
  intro idxs
  induction idxs with
  | nil => intro e _ o ho; simp [emaGo] at ho
  | cons i rest ih =>
      intro e hall o ho
      have hi : (i : ℤ) < period - 1 := hall i (by simp)
      simp only [emaGo, if_pos hi] at ho
      rcases List.mem_cons.mp ho with h | h
      · exact h
      · exact ih e (fun j hj => hall j (by simp [hj])) o h

theorem getD_none_of_all_none (l : List (Option ℚ))
    (h : ∀ o ∈ l, o = none) (i : ℕ) : l.getD i none = none := by
  rw [List.getD_eq_getElem?_getD]
  cases hg : l[i]? with
  | none => rfl
  | some a => simpa using h a (List.getElem?_mem hg)

theorem calcSMA_all_none (data : List ℚ) (period : ℤ)
    (hshort : (data.length : ℤ) < period) : ∀ o ∈ calcSMA data period, o = none := by
  intro o ho
  rw [calcSMA, List.mem_map] at ho
  obtain ⟨i, hi, rfl⟩ := ho
  rw [List.mem_range] at hi
  have : (i : ℤ) < period - 1 := by omega
  simp [this]

/-- C6, amended part one: for every period (including zero and negative ones)
each indicator function returns a series of exactly the input's length and in
particular never throws; amended part two: for a positive period and data
strictly shorter than the period, every entry is the `null` sentinel.
(The original claim — that a zero or negative period produces an all-sentinel
series — is refuted by `calcSMA_negative_period_counterexample` below: the
functions have no period guard and produce non-`null` entries.) -/
theorem indicators_period_guard (data : List ℚ) (period : ℤ) (sqrt : ℚ → ℚ)
    (mult : ℚ) :
    ((calcSMA data period).length = data.length ∧
     (calcEMA data period).length = data.length ∧
     (calcRSI data period).length = data.length ∧
     (calcBollinger sqrt data period mult).1.length = data.length ∧
     (calcBollinger sqrt data period mult).2.1.length = data.length ∧
     (calcBollinger sqrt data period mult).2.2.length = data.length) ∧
    (1 ≤ period → (data.length : ℤ) < period →
      (∀ o ∈ calcSMA data period, o = none) ∧
      (∀ o ∈ calcEMA data period, o = none) ∧
      (∀ o ∈ calcRSI data period, o = none) ∧
      (∀ o ∈ (calcBollinger sqrt data period mult).1, o = none) ∧
      (∀ o ∈ (calcBollinger sqrt data period mult).2.1, o = none) ∧
      (∀ o ∈ (calcBollinger sqrt data period mult).2.2, o = none)) := by
  constructor
  · refine ⟨by simp [calcSMA], by simp [calcEMA, emaGo_length], ?_, ?_, ?_, ?_⟩
    · rw [calcRSI]
      split
      · simp
      · simp [rsiGo_length]
    · simp [calcBollinger, calcSMA]
    · simp [calcBollinger]
    · simp [calcBollinger]
  · intro _ hshort
    have hsma := calcSMA_all_none data period hshort
    have hrsi : ∀ o ∈ calcRSI data period, o = none := by
      intro o ho
      rw [calcRSI, if_pos (by omega)] at ho
      rw [List.mem_map] at ho
      obtain ⟨x, _, rfl⟩ := ho
      rfl
    have hboll : ∀ o ∈ (calcBollinger sqrt data period mult).2.1, o = none := by
      intro o ho
      rw [calcBollinger] at ho
      simp only [List.mem_map] at ho
      obtain ⟨i, _, rfl⟩ := ho
      rw [getD_none_of_all_none _ hsma i]
    have hboll2 : ∀ o ∈ (calcBollinger sqrt data period mult).2.2, o = none := by
      intro o ho
      rw [calcBollinger] at ho
      simp only [List.mem_map] at ho
      obtain ⟨i, _, rfl⟩ := ho
      rw [getD_none_of_all_none _ hsma i]
    refine ⟨hsma, ?_, hrsi, hsma, hboll, hboll2⟩
    exact emaGo_all_none data period _ _ none
      (fun i hi => by rw [List.mem_range] at hi; omega)

/-- Witness for `indicators_period_guard` at `data = [5, 6]`, `period = 5`. -/
theorem indicators_period_guard_witness :
    (calcSMA [5, 6] 5).length = 2 ∧ (∀ o ∈ calcRSI [5, 6] 5, o = none) :=
  ⟨(indicators_period_guard [5, 6] 5 id 2).1.1,
   ((indicators_period_guard [5, 6] 5 id 2).2 (by norm_num) (by norm_num)).2.2.1⟩

/-- C6, counterexample: `calcSMA` with the negative period `-1` on the
one-element series `[5]` returns a numeric entry (`0`, the empty window sum
divided by `-1`; JS evaluates it to `-0`), not the all-`null` series the claim
promises.  The functions have no guard for `period ≤ 0`. -/
theorem calcSMA_negative_period_counterexample :
    ¬ (∀ o ∈ calcSMA [5] (-1), o = none) := by
  norm_num [calcSMA, windowSum, List.range_succ]
  simp

/-- C7: the `TICK` price guard of `appReducer` (src/StatsBar.tsx).  Whatever
value `prev.price * (1 + shock)` evaluates to — any finite number, `NaN` or
`±Infinity` — the stored price stays strictly positive (and, being returned as
a `ℚ`, finite) as long as the previous price was. -/
theorem tickPriceStep_pos (prevPrice : ℚ) (candidate : JSNum)
    (h : 0 < prevPrice) : 0 < tickPriceStep prevPrice candidate := by
  cases candidate with
  | nonfinite => simpa [tickPriceStep] using h
  | fin v =>
      by_cases hv : v ≤ 0
      · simpa [tickPriceStep, hv] using h
      · simpa [tickPriceStep, hv] using not_le.mp hv

/-- Witness for `tickPriceStep_pos`: previous price `1`, candidate `-2`. -/
theorem tickPriceStep_pos_witness :
    0 < (1 : ℚ) ∧ 0 < tickPriceStep 1 (JSNum.fin (-2)) :=
  ⟨by norm_num, tickPriceStep_pos 1 (JSNum.fin (-2)) (by norm_num)⟩

/-- C8: the viewport invariant of src/CandleChart.tsx.  For a valid
`zoomIndex`, any `scrollOffset ≥ 0` and any series: the effective offset is
within `[0, maxOffset]` (the lower bound holds by the `ℕ` type) and the
visible slice has exactly `min visibleCount totalCandles` candles. -/
theorem viewport_invariant (candles : List Candle) (zoomIndex scrollOffset : ℕ)
    (hz : zoomIndex < ZOOM_LEVELS.length) :
    clampedOffset scrollOffset (maxOffset candles.length (visibleCount zoomIndex)) ≤
      maxOffset candles.length (visibleCount zoomIndex) ∧
    (displayCandles candles (visibleCount zoomIndex)
        (clampedOffset scrollOffset
          (maxOffset candles.length (visibleCount zoomIndex)))).length =
      min (visibleCount zoomIndex) candles.length := by
  refine ⟨Nat.min_le_right _ _, ?_⟩
  simp only [displayCandles, maxOffset, clampedOffset, List.length_drop,
    List.length_take]
  omega

/-- Witness for `viewport_invariant`: the spec's own scenario — 500 candles,
zoom level 4 (`visibleCount = 100`), `scrollBy(+1000000)`. -/
theorem viewport_invariant_witness :
    clampedOffset 1000000 (maxOffset (List.replicate 500 c0).length (visibleCount 4)) ≤
      maxOffset (List.replicate 500 c0).length (visibleCount 4) ∧
    (displayCandles (List.replicate 500 c0) (visibleCount 4)
        (clampedOffset 1000000
          (maxOffset (List.replicate 500 c0).length (visibleCount 4)))).length =
      min (visibleCount 4) (List.replicate 500 c0).length :=
  viewport_invariant (List.replicate 500 c0) 4 1000000 (by decide)

/-- C9, amended: away from the degenerate case — i.e. whenever the visible
range satisfies `lo < hi`, so that `range = hi - lo` — `priceToY` and
`yToPrice` are exact mutual inverses (in `ℚ`; the floating-point versions
agree to rounding).  In the degenerate case `hi = lo` the fallback span
`range = 1` makes the round trip return `p - 1`, not `p`
(see `priceToY_degenerate_counterexample`). -/
theorem priceToY_yToPrice_inverse (topPad mainChartH lo hi p y : ℚ)
    (hm : mainChartH ≠ 0) (hrange : lo < hi) (hp1 : lo ≤ p) (hp2 : p ≤ hi) :
    yToPrice topPad mainChartH hi (chartRange hi lo)
        (priceToY topPad mainChartH lo (chartRange hi lo) p) = p ∧
    priceToY topPad mainChartH lo (chartRange hi lo)
        (yToPrice topPad mainChartH hi (chartRange hi lo) y) = y := by
  have h0 : hi - lo ≠ 0 := sub_ne_zero.mpr (ne_of_gt hrange)
  rw [yToPrice, priceToY, yToPrice, priceToY, chartRange, if_neg h0]
  constructor <;> field_simp <;> ring

/-- Witness for `priceToY_yToPrice_inverse`: `topPad = 6`, `mainChartH = 100`,
`lo = 1`, `hi = 3`, `p = 2`, `y = 50`. -/
theorem priceToY_yToPrice_inverse_witness :
    yToPrice 6 100 3 (chartRange 3 1) (priceToY 6 100 1 (chartRange 3 1) 2) = 2 ∧
    priceToY 6 100 1 (chartRange 3 1) (yToPrice 6 100 3 (chartRange 3 1) 50) = 50 :=
  priceToY_yToPrice_inverse 6 100 1 3 2 50 (by norm_num) (by norm_num)
    (by norm_num) (by norm_num)

/-- C9, counterexample: in the degenerate case `hi = lo = 0` (all visible
prices zero, so both padded bounds collapse), with `topPad = 0` and
`mainChartH = 100`, the price `p = 0` lies in `[lo, hi]` but the round trip
`yToPrice ∘ priceToY` returns `-1 = p - 1`: the transforms are NOT mutual
inverses in the degenerate case, missing by the whole fallback span `1`. -/
theorem priceToY_degenerate_counterexample :
    yToPrice 0 100 0 (chartRange 0 0) (priceToY 0 100 0 (chartRange 0 0) 0) = -1 ∧
    (-1 : ℚ) ≠ 0 := by
  norm_num [yToPrice, priceToY, chartRange]

/-! ### Candle aggregator: helper lemmas -/

theorem mem_of_mem_trimCap {c : Candle} {l : List Candle}
    (h : c ∈ trimCap l) : c ∈ l := by
  rw [trimCap] at h
  split at h
  · exact List.mem_of_mem_drop h
  · exact h

theorem trimCap_eq_drop (l : List Candle) :
    trimCap l = l.drop (l.length - 500) := by
  rw [trimCap]
  split
  · rfl
  · rw [Nat.sub_eq_zero_of_le (by omega), List.drop_zero]

theorem tickCandlesRaw_length_le (cs : List Candle) (p : ℕ) (pr : ℚ) (t : ℕ) :
    (tickCandlesRaw cs p pr t).length ≤ cs.length + 1 := by
  rcases List.eq_nil_or_concat cs with rfl | ⟨l, a, rfl⟩
  · simp [tickCandlesRaw]
  · rw [List.concat_eq_append]
    simp only [tickCandlesRaw, List.getLast?_concat, List.dropLast_concat]
    split <;> simp

theorem tickCandlesRaw_low_close_high (cs : List Candle) (p : ℕ) (pr : ℚ)
    (t : ℕ) (h : ∀ c ∈ cs, c.low ≤ c.close ∧ c.close ≤ c.high) :
    ∀ c ∈ tickCandlesRaw cs p pr t, c.low ≤ c.close ∧ c.close ≤ c.high := by
  intro c hc
  rcases List.eq_nil_or_concat cs with rfl | ⟨l, a, rfl⟩
  · simp only [tickCandlesRaw, List.getLast?_nil, List.nil_append,
      List.mem_singleton] at hc
    subst hc
    exact ⟨le_refl _, le_refl _⟩
  · rw [List.concat_eq_append] at hc h
    simp only [tickCandlesRaw, List.getLast?_concat, List.dropLast_concat] at hc
    split at hc
    · rcases List.mem_append.mp hc with h1 | h1
      · exact h c (List.mem_append_left _ h1)
      · rw [List.mem_singleton] at h1
        subst h1
        exact ⟨min_le_right _ _, le_max_right _ _⟩
    · rcases List.mem_append.mp hc with h1 | h1
      · exact h c h1
      · rw [List.mem_singleton] at h1
        subst h1
        exact ⟨le_refl _, le_refl _⟩

theorem tickCandles_low_close_high (cs : List Candle) (p : ℕ) (pr : ℚ) (t : ℕ)
    (h : ∀ c ∈ cs, c.low ≤ c.close ∧ c.close ≤ c.high) :
    ∀ c ∈ tickCandles cs p pr t, c.low ≤ c.close ∧ c.close ≤ c.high :=
  fun c hc =>
    tickCandlesRaw_low_close_high cs p pr t h c (mem_of_mem_trimCap hc)

theorem applyTicks_low_close_high_aux (p : ℕ) :
    ∀ (ticks : List (ℚ × ℕ)) (cs : List Candle),
      (∀ c ∈ cs, c.low ≤ c.close ∧ c.close ≤ c.high) →
      ∀ c ∈ applyTicks p cs ticks, c.low ≤ c.close ∧ c.close ≤ c.high := by
  intro ticks
  induction ticks with
  | nil => intro cs h; simpa [applyTicks] using h
  | cons q rest ih =>
      intro cs h
      obtain ⟨pr, t⟩ := q
      rw [applyTicks]
      exact ih _ (tickCandles_low_close_high _ _ _ _ h)

/-- C1, amended: every candle an aggregated series ever contains satisfies
`low ≤ close` and `close ≤ high` (hence `low ≤ high`).  The stronger claimed
invariant `low ≤ min(open, close) ∧ max(open, close) ≤ high` fails for the
`open` of a candle created by a tick that gapped across a bucket boundary
(see `applyTicks_ohlc_counterexample`): such a candle has
`open = previous close` but `high = low = close = tick price`. -/
theorem applyTicks_low_close_high (periodSec : ℕ) (ticks : List (ℚ × ℕ)) :
    ∀ c ∈ applyTicks periodSec [] ticks, c.low ≤ c.close ∧ c.close ≤ c.high :=
  applyTicks_low_close_high_aux periodSec ticks [] (by simp)

/-- Witness for `applyTicks_low_close_high` at timeframe 60s and the tick
sequence `(10, t=0), (5, t=60000)`: the gap candle is in the series and obeys
the amended bounds. -/
theorem applyTicks_low_close_high_witness :
    (Candle.mk 60000 10 5 5 5).low ≤ (Candle.mk 60000 10 5 5 5).close ∧
    (Candle.mk 60000 10 5 5 5).close ≤ (Candle.mk 60000 10 5 5 5).high :=
  applyTicks_low_close_high 60 [(10, 0), (5, 60000)]
    (Candle.mk 60000 10 5 5 5) (by decide)

/-- C1, counterexample: starting from the empty series at timeframe 60s, the
ticks `(price 10, t = 0)` then `(price 5, t = 60000)` leave a candle (the
second one, `{time 60000, open 10, high 5, low 5, close 5}`) with
`max(open, close) = 10 > high = 5`: the claimed OHLC invariant does not hold
for every candle produced by `tickCandles`. -/
theorem applyTicks_ohlc_counterexample :
    ¬ (∀ c ∈ applyTicks 60 [] [(10, 0), (5, 60000)],
        c.low ≤ min c.open' c.close ∧ max c.open' c.close ≤ c.high) := by
  decide

/-- The series with only the last element replaced equals
`dropLast ++ [replacement]`. -/
theorem set_last_eq (l : List Candle) (u : Candle) (h : l ≠ []) :
    l.set (l.length - 1) u = l.dropLast ++ [u] := by
  have hl : 0 < l.length := List.length_pos.mpr h
  rw [List.set_eq_take_append_cons_drop, if_pos (by omega),
    List.dropLast_eq_take, List.drop_eq_nil_of_le (by omega)]

/-- C3, amended: one aggregator step computes exactly the claimed
update-in-place / append behaviour, followed by the 500-cap trim the claim
omits (`tickCandlesSpec` is the claim's algorithm verbatim; without the trim
the two sides differ on full series — see
`tickCandles_cap_trim_counterexample`). -/
theorem tickCandles_eq_spec_trimmed (candles : List Candle) (periodSec : ℕ)
    (price : ℚ) (timestamp : ℕ) :
    tickCandles candles periodSec price timestamp =
      trimCap (tickCandlesSpec candles periodSec price timestamp) := by
  rcases List.eq_nil_or_concat candles with rfl | ⟨l, a, rfl⟩
  · rfl
  · rw [List.concat_eq_append, tickCandles]
    simp only [tickCandlesRaw, tickCandlesSpec, bucketOf, List.getLast?_concat,
      List.dropLast_concat]
    split
    · rw [set_last_eq _ _ (by simp), List.dropLast_concat]
    · rfl

/-- C3, counterexample: on a series that already holds 500 candles, a tick
opening a new bucket makes `tickCandles` drop the oldest candle (result
length 500), while the claim's trimless algorithm appends to length 501 —
the claim's "all earlier candles are unchanged" fails at the cap. -/
theorem tickCandles_cap_trim_counterexample :
    tickCandles (List.replicate 500 c0) 60 5 60000 ≠
      tickCandlesSpec (List.replicate 500 c0) 60 5 60000 := by
  intro h
  have hlen := congrArg List.length h
  have hrep : List.replicate 500 c0 = List.replicate 499 c0 ++ [c0] := by
    rw [← List.replicate_succ']
  rw [tickCandles, tickCandlesRaw, tickCandlesSpec, bucketOf, hrep] at hlen
  simp only [List.getLast?_concat] at hlen
  rw [if_neg (by decide), if_neg (by decide), trimCap_eq_drop] at hlen
  simp only [List.length_drop, List.length_append, List.length_replicate,
    List.length_cons, List.length_nil] at hlen
  omega

/-- C4: given an input series within the cap, the aggregator's output stays
within the cap, and the output is exactly a suffix (`drop` of the overflow
count) of the untrimmed step result — only the oldest candles are evicted and
every retained candle is bit-for-bit the one computed for its bucket. -/
theorem tickCandles_cap (cs : List Candle) (p : ℕ) (pr : ℚ) (t : ℕ)
    (h : cs.length ≤ 500) :
    (tickCandles cs p pr t).length ≤ 500 ∧
    tickCandles cs p pr t =
      (tickCandlesRaw cs p pr t).drop ((tickCandlesRaw cs p pr t).length - 500) := by
  refine ⟨?_, trimCap_eq_drop _⟩
  have hle := tickCandlesRaw_length_le cs p pr t
  rw [tickCandles, trimCap_eq_drop, List.length_drop]
  omega

/-- Witness for `tickCandles_cap`: the empty series and one tick. -/
theorem tickCandles_cap_witness :
    (tickCandles [] 60 5 0).length ≤ 500 ∧
    tickCandles [] 60 5 0 =
      (tickCandlesRaw [] 60 5 0).drop ((tickCandlesRaw [] 60 5 0).length - 500) :=
  tickCandles_cap [] 60 5 0 (by decide)

/-! ### Candle aggregator: the time grid (C2) -/

theorem bucketOf_mono (pMs : ℕ) {t u : ℕ} (h : t ≤ u) :
    bucketOf pMs t ≤ bucketOf pMs u :=
  Nat.mul_le_mul_right _ (Nat.div_le_div_right h)

theorem dvd_bucketOf (pMs t : ℕ) : pMs ∣ bucketOf pMs t :=
  dvd_mul_left pMs (t / pMs)

theorem le_getLast_of_pairwise_lt :
    ∀ (l : List ℕ) (a : ℕ), l.Pairwise (· < ·) → l.getLast? = some a →
      ∀ x ∈ l, x ≤ a := by
  intro l
  induction l with
  | nil => intro a _ _ x hx; simp at hx
  | cons b t ih =>
      intro a hp hl x hx
      cases t with
      | nil =>
          simp only [List.getLast?_singleton, Option.some.injEq] at hl
          rw [List.mem_singleton] at hx
          omega
      | cons u t' =>
          rw [List.getLast?_cons_cons] at hl
          have ha : a ∈ u :: t' := List.mem_of_getLast?_eq_some hl
          rcases List.mem_cons.mp hx with rfl | hx'
          · have := (List.pairwise_cons.mp hp).1 a ha
            omega
          · exact ih a (List.pairwise_cons.mp hp).2 hl x hx'

theorem tickCandlesRaw_times (cs : List Candle) (p : ℕ) (pr : ℚ) (t : ℕ)
    (b : ℕ) (hpw : (cs.map Candle.time).Pairwise (· < ·))
    (hdvd : ∀ c ∈ cs, p * 1000 ∣ c.time) (hle : ∀ c ∈ cs, c.time ≤ b)
    (hb : b ≤ bucketOf (p * 1000) t) :
    ((tickCandlesRaw cs p pr t).map Candle.time).Pairwise (· < ·) ∧
    (∀ c ∈ tickCandlesRaw cs p pr t, p * 1000 ∣ c.time) ∧
    (∀ c ∈ tickCandlesRaw cs p pr t, c.time ≤ bucketOf (p * 1000) t) := by
  rcases List.eq_nil_or_concat cs with rfl | ⟨l, a, rfl⟩
  · refine ⟨?_, ?_, ?_⟩ <;>
      simp [tickCandlesRaw, bucketOf, dvd_mul_left]
  · rw [List.concat_eq_append] at hpw hdvd hle ⊢
    simp only [tickCandlesRaw, List.getLast?_concat, List.dropLast_concat]
    split
    · -- same bucket: last candle updated in place, `time` values unchanged
      rename_i hsame
      refine ⟨?_, ?_, ?_⟩
      · simpa using (by simpa using hpw :
          ((l.map Candle.time) ++ [a.time]).Pairwise (· < ·))
      · intro c hc
        rcases List.mem_append.mp hc with h1 | h1
        · exact hdvd c (List.mem_append_left _ h1)
        · rw [List.mem_singleton] at h1
          subst h1
          exact hdvd a (List.mem_append_right _ (List.mem_singleton_self a))
      · intro c hc
        rcases List.mem_append.mp hc with h1 | h1
        · exact le_trans (hle c (List.mem_append_left _ h1)) hb
        · rw [List.mem_singleton] at h1
          subst h1
          exact le_trans (hle a (List.mem_append_right _ (List.mem_singleton_self a))) hb
    · -- new bucket: one candle appended, strictly after the whole series
      rename_i hdiff
      have hlast : ((l ++ [a]).map Candle.time).getLast? = some a.time := by
        simp
      have hmax := le_getLast_of_pairwise_lt _ _ hpw hlast
      have halt : a.time < bucketOf (p * 1000) t :=
        lt_of_le_of_ne
          (le_trans (hle a (List.mem_append_right _ (List.mem_singleton_self a))) hb)
          hdiff
      refine ⟨?_, ?_, ?_⟩
      · rw [List.map_append, List.pairwise_append]
        refine ⟨hpw, by simp, ?_⟩
        intro x hx y hy
        rw [List.map_cons, List.map_nil, List.mem_singleton] at hy
        subst hy
        exact lt_of_le_of_lt (hmax x hx) halt
      · intro c hc
        rcases List.mem_append.mp hc with h1 | h1
        · exact hdvd c h1
        · rw [List.mem_singleton] at h1
          subst h1
          exact dvd_bucketOf _ _
      · intro c hc
        rcases List.mem_append.mp hc with h1 | h1
        · exact le_trans (hle c h1) hb
        · rw [List.mem_singleton] at h1
          subst h1
          exact le_refl _

theorem tickCandles_times (cs : List Candle) (p : ℕ) (pr : ℚ) (t : ℕ)
    (b : ℕ) (hpw : (cs.map Candle.time).Pairwise (· < ·))
    (hdvd : ∀ c ∈ cs, p * 1000 ∣ c.time) (hle : ∀ c ∈ cs, c.time ≤ b)
    (hb : b ≤ bucketOf (p * 1000) t) :
    ((tickCandles cs p pr t).map Candle.time).Pairwise (· < ·) ∧
    (∀ c ∈ tickCandles cs p pr t, p * 1000 ∣ c.time) ∧
    (∀ c ∈ tickCandles cs p pr t, c.time ≤ bucketOf (p * 1000) t) := by
  obtain ⟨h1, h2, h3⟩ := tickCandlesRaw_times cs p pr t b hpw hdvd hle hb
  refine ⟨?_, fun c hc => h2 c (mem_of_mem_trimCap hc),
    fun c hc => h3 c (mem_of_mem_trimCap hc)⟩
  rw [tickCandles, trimCap_eq_drop, List.map_drop]
  exact h1.sublist (List.drop_sublist _ _)

theorem applyTicks_times_aux (p : ℕ) :
    ∀ (ticks : List (ℚ × ℕ)) (cs : List Candle) (b : ℕ),
      (cs.map Candle.time).Pairwise (· < ·) →
      (∀ c ∈ cs, p * 1000 ∣ c.time) →
      (∀ c ∈ cs, c.time ≤ b) →
      (∀ q ∈ ticks, b ≤ bucketOf (p * 1000) q.2) →
      (ticks.map Prod.snd).Pairwise (· ≤ ·) →
      ((applyTicks p cs ticks).map Candle.time).Pairwise (· < ·) ∧
      (∀ c ∈ applyTicks p cs ticks, p * 1000 ∣ c.time) := by
  intro ticks
  induction ticks with
  | nil =>
      intro cs b h1 h2 _ _ _
      exact ⟨h1, h2⟩
  | cons q rest ih =>
      intro cs b h1 h2 h3 h4 h5
      obtain ⟨pr, t⟩ := q
      rw [applyTicks]
      have hb : b ≤ bucketOf (p * 1000) t := h4 (pr, t) (List.mem_cons_self _ _)
      obtain ⟨g1, g2, g3⟩ := tickCandles_times cs p pr t b h1 h2 h3 hb
      rw [List.map_cons] at h5
      refine ih (tickCandles cs p pr t) (bucketOf (p * 1000) t) g1 g2 g3 ?_
        (List.pairwise_cons.mp h5).2
      intro q hq
      have ht : t ≤ q.2 :=
        (List.pairwise_cons.mp h5).1 q.2 (List.mem_map_of_mem Prod.snd hq)
      exact bucketOf_mono _ ht

/-- C2, amended: feeding any tick sequence with non-decreasing timestamps
through repeated `tickCandles` steps produces a series whose `time` values
are strictly increasing and all exact multiples of `T*1000` ms, with
consecutive candles spaced at LEAST `T*1000` ms apart.  The claim's stronger
"spaced exactly `T*1000` ms apart, with no gaps" is false: a bucket in which
no tick arrives produces no candle, leaving a larger gap
(see `applyTicks_gap_counterexample`). -/
theorem applyTicks_time_grid (periodSec : ℕ) (ticks : List (ℚ × ℕ))
    (hp : 1 ≤ periodSec)
    (hmono : (ticks.map Prod.snd).Pairwise (· ≤ ·)) :
    ((applyTicks periodSec [] ticks).map Candle.time).Pairwise (· < ·) ∧
    (∀ c ∈ applyTicks periodSec [] ticks, periodSec * 1000 ∣ c.time) ∧
    (∀ i, i + 1 < (applyTicks periodSec [] ticks).length →
      ((applyTicks periodSec [] ticks).map Candle.time).getD i 0 + periodSec * 1000 ≤
        ((applyTicks periodSec [] ticks).map Candle.time).getD (i + 1) 0) := by
  obtain ⟨h1, h2⟩ := applyTicks_times_aux periodSec ticks [] 0 (by simp)
    (by simp) (by simp) (fun q _ => Nat.zero_le _) hmono
  refine ⟨h1, h2, ?_⟩
  intro i hi
  have hml : ((applyTicks periodSec [] ticks).map Candle.time).length =
      (applyTicks periodSec [] ticks).length := List.length_map _ _
  have hi1 : i < ((applyTicks periodSec [] ticks).map Candle.time).length := by
    omega
  have hi2 : i + 1 < ((applyTicks periodSec [] ticks).map Candle.time).length := by
    omega
  rw [List.getD_eq_getElem?_getD, List.getD_eq_getElem?_getD,
    List.getElem?_eq_getElem hi1, List.getElem?_eq_getElem hi2]
  have hlt := (List.pairwise_iff_getElem.mp h1) i (i + 1) hi1 hi2 (by omega)
  have hd1 : periodSec * 1000 ∣ ((applyTicks periodSec [] ticks).map Candle.time)[i] := by
    rw [List.getElem_map]
    exact h2 _ (List.getElem_mem _)
  have hd2 : periodSec * 1000 ∣ ((applyTicks periodSec [] ticks).map Candle.time)[i + 1] := by
    rw [List.getElem_map]
    exact h2 _ (List.getElem_mem _)
  have hsub : periodSec * 1000 ∣
      ((applyTicks periodSec [] ticks).map Candle.time)[i + 1] -
        ((applyTicks periodSec [] ticks).map Candle.time)[i] :=
    Nat.dvd_sub' hd2 hd1
  have hstep := Nat.le_of_dvd (by omega) hsub
  simp only [Option.getD_some]
  omega

/-- Witness for `applyTicks_time_grid`: timeframe 60s, two ticks one bucket
apart. -/
theorem applyTicks_time_grid_witness :
    ((applyTicks 60 [] [(10, 0), (5, 60000)]).map Candle.time).Pairwise (· < ·) ∧
    (∀ c ∈ applyTicks 60 [] [(10, 0), (5, 60000)], 60 * 1000 ∣ c.time) ∧
    (∀ i, i + 1 < (applyTicks 60 [] [(10, 0), (5, 60000)]).length →
      ((applyTicks 60 [] [(10, 0), (5, 60000)]).map Candle.time).getD i 0 + 60 * 1000 ≤
        ((applyTicks 60 [] [(10, 0), (5, 60000)]).map Candle.time).getD (i + 1) 0) :=
  applyTicks_time_grid 60 [(10, 0), (5, 60000)] (by decide) (by decide)

/-- C2, counterexample: with timeframe 60s and ticks at `t = 0` and
`t = 120000` (non-decreasing timestamps), the series' times are
`[0, 120000]` — consecutive candles are 120000 ms apart, not the claimed
exact `60 * 1000` ms, because the empty bucket `[60000, 120000)` produced no
candle. -/
theorem applyTicks_gap_counterexample :
    ([0, 120000] : List ℕ).Pairwise (· ≤ ·) ∧
    (applyTicks 60 [] [(10, 0), (5, 120000)]).map Candle.time = [0, 120000] ∧
    ¬ (120000 = 0 + 60 * 1000) := by
  refine ⟨by decide, by decide, by decide⟩

/-! ### RSI: value bounds and the avgLoss = 0 cap (C5, C10) -/

theorem gainOf_nonneg (d : ℚ) : 0 ≤ gainOf d := by
  rw [gainOf]
  split
  · linarith
  · exact le_refl 0

theorem lossOf_nonneg (d : ℚ) : 0 ≤ lossOf d := by
  rw [lossOf]
  split
  · exact abs_nonneg d
  · exact le_refl 0

theorem lossOf_eq_zero_of_pos {d : ℚ} (h : 0 < d) : lossOf d = 0 := by
  rw [lossOf, if_neg (not_lt.mpr (le_of_lt h))]

/-- When the smoothed average loss is exactly 0, the code sets `rs = 100` and
pushes `100 - 100/101 = 10000/101 ≈ 99.0099`, for any average gain. -/
theorem rsiVal_al_zero (ag : ℚ) : rsiVal ag 0 = 10000 / 101 := by
  norm_num [rsiVal]

theorem rsiVal_bounds (ag al : ℚ) (h1 : 0 ≤ ag) (h2 : 0 ≤ al) :
    0 ≤ rsiVal ag al ∧ rsiVal ag al < 100 := by
  rw [rsiVal]
  have hrs0 : 0 ≤ if al = 0 then (100 : ℚ) else ag / al := by
    split
    · norm_num
    · exact div_nonneg h1 h2
  set rs := if al = 0 then (100 : ℚ) else ag / al
  have h1p : (0 : ℚ) < 1 + rs := by linarith
  constructor
  · have hub : 100 / (1 + rs) ≤ 100 := by
      rw [div_le_iff₀ h1p]
      nlinarith
    linarith
  · have hlb : 0 < 100 / (1 + rs) := by positivity
    linarith

theorem glStep_nonneg (data : List ℚ) (p : ℚ × ℚ) (i : ℕ)
    (h1 : 0 ≤ p.1) (h2 : 0 ≤ p.2) :
    0 ≤ (glStep data p i).1 ∧ 0 ≤ (glStep data p i).2 := by
  simp only [glStep]
  rcases lt_or_le 0 (data.getD i 0 - data.getD (i - 1) 0) with hd | hd
  · rw [if_pos hd]
    exact ⟨add_nonneg h1 (le_of_lt hd), h2⟩
  · rw [if_neg (not_lt.mpr hd)]
    exact ⟨h1, add_nonneg h2 (abs_nonneg _)⟩

theorem foldl_glStep_nonneg (data : List ℚ) :
    ∀ (idxs : List ℕ) (acc : ℚ × ℚ), 0 ≤ acc.1 → 0 ≤ acc.2 →
      0 ≤ (idxs.foldl (glStep data) acc).1 ∧ 0 ≤ (idxs.foldl (glStep data) acc).2 := by
  intro idxs
  induction idxs with
  | nil => intro acc h1 h2; exact ⟨h1, h2⟩
  | cons i rest ih =>
      intro acc h1 h2
      rw [List.foldl_cons]
      obtain ⟨g1, g2⟩ := glStep_nonneg data acc i h1 h2
      exact ih _ g1 g2

theorem initGL_nonneg (data : List ℚ) (period : ℤ) :
    0 ≤ (initGL data period).1 ∧ 0 ≤ (initGL data period).2 :=
  foldl_glStep_nonneg data _ (0, 0) (le_refl 0) (le_refl 0)

theorem foldl_glStep_snd_zero (data : List ℚ) :
    ∀ (idxs : List ℕ) (acc : ℚ × ℚ),
      (∀ i ∈ idxs, 0 < data.getD i 0 - data.getD (i - 1) 0) →
      (idxs.foldl (glStep data) acc).2 = acc.2 := by
  intro idxs
  induction idxs with
  | nil => intro acc _; rfl
  | cons i rest ih =>
      intro acc hall
      rw [List.foldl_cons]
      have hstep : (glStep data acc i).2 = acc.2 := by
        simp only [glStep]
        rw [if_pos (hall i (List.mem_cons_self _ _))]
      rw [ih (glStep data acc i) fun j hj => hall j (List.mem_cons_of_mem _ hj),
        hstep]

theorem rsiGo_bounds (data : List ℚ) (period : ℤ) (hp : 1 ≤ period) :
    ∀ (idxs : List ℕ) (ag al : ℚ), 0 ≤ ag → 0 ≤ al →
      ∀ o ∈ rsiGo data period ag al idxs, ∀ v, o = some v →
        0 ≤ v ∧ v < 100 := by
  have hper : (0 : ℚ) < (period : ℚ) := by
    have : (1 : ℚ) ≤ (period : ℚ) := by exact_mod_cast hp
    linarith
  intro idxs
  induction idxs with
  | nil =>
      intro ag al _ _ o ho
      simp [rsiGo] at ho
  | cons i rest ih =>
      intro ag al hag hal o ho v hv
      by_cases h1 : (i : ℤ) < period
      · simp only [rsiGo, if_pos h1] at ho
        rcases List.mem_cons.mp ho with h | h
        · rw [h] at hv
          cases hv
        · exact ih ag al hag hal o h v hv
      · by_cases h2 : (i : ℤ) = period
        · simp only [rsiGo, if_neg h1, if_pos h2] at ho
          rcases List.mem_cons.mp ho with h | h
          · rw [h] at hv
            rw [Option.some_inj] at hv
            rw [← hv]
            exact rsiVal_bounds ag al hag hal
          · exact ih ag al hag hal o h v hv
        · simp only [rsiGo, if_neg h1, if_neg h2] at ho
          have hg := gainOf_nonneg (data.getD i 0 - data.getD (i - 1) 0)
          have hl := lossOf_nonneg (data.getD i 0 - data.getD (i - 1) 0)
          have hag2 : 0 ≤ (ag * ((period : ℚ) - 1) +
              gainOf (data.getD i 0 - data.getD (i - 1) 0)) / (period : ℚ) := by
            apply div_nonneg _ (le_of_lt hper)
            have hpm1 : (0 : ℚ) ≤ (period : ℚ) - 1 := by
              have : (1 : ℚ) ≤ (period : ℚ) := by exact_mod_cast hp
              linarith
            nlinarith
          have hal2 : 0 ≤ (al * ((period : ℚ) - 1) +
              lossOf (data.getD i 0 - data.getD (i - 1) 0)) / (period : ℚ) := by
            apply div_nonneg _ (le_of_lt hper)
            have hpm1 : (0 : ℚ) ≤ (period : ℚ) - 1 := by
              have : (1 : ℚ) ≤ (period : ℚ) := by exact_mod_cast hp
              linarith
            nlinarith
          rcases List.mem_cons.mp ho with h | h
          · rw [h] at hv
            rw [Option.some_inj] at hv
            rw [← hv]
            exact rsiVal_bounds _ _ hag2 hal2
          · exact ih _ _ hag2 hal2 o h v hv

/-- C10: every defined value produced by `calcRSI` with a positive period
lies in `[0, 100)` — never negative, and in particular never exactly 100
(the `al === 0` branch caps `rs` at the finite value 100 instead of treating
it as infinite). -/
theorem calcRSI_bounds (data : List ℚ) (period : ℤ) (hp : 1 ≤ period) :
    ∀ o ∈ calcRSI data period, ∀ v, o = some v → 0 ≤ v ∧ v < 100 := by
  intro o ho v hv
  simp only [calcRSI] at ho
  split at ho
  · rw [List.mem_map] at ho
    obtain ⟨x, _, rfl⟩ := ho
    cases hv
  · have hper : (0 : ℚ) ≤ (period : ℚ) := by
      have : (1 : ℚ) ≤ (period : ℚ) := by exact_mod_cast hp
      linarith
    obtain ⟨hg, hl⟩ := initGL_nonneg data period
    exact rsiGo_bounds data period hp _ _ _ (div_nonneg hg hper)
      (div_nonneg hl hper) o ho v hv

/-- The concrete RSI series for the strictly increasing closes `[0, 1]` with
period 1: the defined entry is `100 - 100/(1+100) = 10000/101`, not 100. -/
theorem mem_calcRSI_01 : some (10000 / 101 : ℚ) ∈ calcRSI [0, 1] 1 := by
  have h : calcRSI [0, 1] 1 = [none, some (10000 / 101)] := by
    norm_num [calcRSI, initGL, glStep, rsiGo, rsiVal, List.range_succ,
      List.range']
  rw [h]
  simp

/-- Witness for `calcRSI_bounds` at `data = [0, 1]`, `period = 1`. -/
theorem calcRSI_bounds_witness :
    some (10000 / 101 : ℚ) ∈ calcRSI [0, 1] 1 ∧
    0 ≤ (10000 / 101 : ℚ) ∧ (10000 / 101 : ℚ) < 100 :=
  ⟨mem_calcRSI_01,
   calcRSI_bounds [0, 1] 1 (by norm_num) (some (10000 / 101)) mem_calcRSI_01
     (10000 / 101) rfl⟩

theorem rsiGo_al_zero_cap (data : List ℚ) (period : ℤ) :
    ∀ (idxs : List ℕ) (ag : ℚ),
      (∀ i ∈ idxs, period < (i : ℤ) →
        lossOf (data.getD i 0 - data.getD (i - 1) 0) = 0) →
      ∀ o ∈ rsiGo data period ag 0 idxs, ∀ v, o = some v →
        v = 10000 / 101 := by
  intro idxs
  induction idxs with
  | nil =>
      intro ag _ o ho
      simp [rsiGo] at ho
  | cons i rest ih =>
      intro ag hall o ho v hv
      by_cases h1 : (i : ℤ) < period
      · simp only [rsiGo, if_pos h1] at ho
        rcases List.mem_cons.mp ho with h | h
        · rw [h] at hv
          cases hv
        · exact ih ag (fun j hj => hall j (List.mem_cons_of_mem _ hj)) o h v hv
      · by_cases h2 : (i : ℤ) = period
        · simp only [rsiGo, if_neg h1, if_pos h2] at ho
          rcases List.mem_cons.mp ho with h | h
          · rw [h] at hv
            rw [Option.some_inj] at hv
            rw [← hv, rsiVal_al_zero]
          · exact ih ag (fun j hj => hall j (List.mem_cons_of_mem _ hj)) o h v hv
        · simp only [rsiGo, if_neg h1, if_neg h2] at ho
          have hloss : lossOf (data.getD i 0 - data.getD (i - 1) 0) = 0 :=
            hall i (List.mem_cons_self _ _) (by omega)
          rw [hloss] at ho
          have hal2 : ((0 : ℚ) * ((period : ℚ) - 1) + 0) / (period : ℚ) = 0 := by
            ring_nf
          rw [hal2] at ho
          rcases List.mem_cons.mp ho with h | h
          · rw [h] at hv
            rw [Option.some_inj] at hv
            rw [← hv, rsiVal_al_zero]
          · exact ih _ (fun j hj => hall j (List.mem_cons_of_mem _ hj)) o h v hv

/-- C5, amended: over a strictly monotonically increasing close series (the
claim's example of a series whose smoothed average loss is 0 at every defined
index) `calcRSI` returns `100 - 100/(1+100) = 10000/101 ≈ 99.0099` at every
defined index — NOT exactly 100.  The code replaces `RS → ∞` by the finite
cap `rs = 100` when `avgLoss === 0`, so the claimed value 100 is never
attained (see `calcRSI_avgloss_zero_counterexample`). -/
theorem calcRSI_strict_increase (data : List ℚ) (period : ℤ) (hp : 1 ≤ period)
    (hmono : data.Pairwise (· < ·)) :
    ∀ o ∈ calcRSI data period, ∀ v, o = some v → v = 10000 / 101 := by
  intro o ho v hv
  simp only [calcRSI] at ho
  split at ho
  · rw [List.mem_map] at ho
    obtain ⟨x, _, rfl⟩ := ho
    cases hv
  · rename_i hlen
    have hdiff : ∀ i : ℕ, 1 ≤ i → i < data.length →
        0 < data.getD i 0 - data.getD (i - 1) 0 := by
      intro i hi1 hi2
      have hlt := List.pairwise_iff_getElem.mp hmono (i - 1) i (by omega) hi2
        (by omega)
      rw [List.getD_eq_getElem?_getD, List.getD_eq_getElem?_getD,
        List.getElem?_eq_getElem hi2, List.getElem?_eq_getElem (by omega : i - 1 < data.length)]
      simp only [Option.getD_some]
      linarith
    have hal0 : (initGL data period).2 = 0 := by
      rw [initGL]
      rw [foldl_glStep_snd_zero data _ (0, 0) ?_]
      intro i hi
      rw [List.mem_range'] at hi
      apply hdiff i (by omega)
      omega
    rw [hal0, zero_div] at ho
    apply rsiGo_al_zero_cap data period _ _ ?_ o ho v hv
    intro i hi hip
    rw [List.mem_range] at hi
    exact lossOf_eq_zero_of_pos (hdiff i (by omega) hi)

/-- The concrete RSI series for the strictly increasing closes `[0, 1, 2]`
with period 1: both defined entries equal `10000/101`. -/
theorem mem_calcRSI_012 : some (10000 / 101 : ℚ) ∈ calcRSI [0, 1, 2] 1 := by
  have h : calcRSI [0, 1, 2] 1 =
      [none, some (10000 / 101), some (10000 / 101)] := by
    norm_num [calcRSI, initGL, glStep, rsiGo, rsiVal, gainOf, lossOf,
      List.range_succ, List.range']
  rw [h]
  simp

/-- Witness for `calcRSI_strict_increase` on the strictly increasing series
`[0, 1, 2]` with period 1. -/
theorem calcRSI_strict_increase_witness :
    some (10000 / 101 : ℚ) ∈ calcRSI [0, 1, 2] 1 ∧
    (10000 / 101 : ℚ) = 10000 / 101 :=
  ⟨mem_calcRSI_012,
   calcRSI_strict_increase [0, 1, 2] 1 (by norm_num) (by norm_num)
     (some (10000 / 101)) mem_calcRSI_012 (10000 / 101) rfl⟩

/-- C5, counterexample: on the strictly increasing series `[0, 1]` with
period 1 the smoothed average loss is 0 at the only defined index, yet
`calcRSI` returns `10000/101 ≈ 99.0099`, not the claimed exact 100. -/
theorem calcRSI_avgloss_zero_counterexample :
    calcRSI [0, 1] 1 = [none, some (10000 / 101)] ∧
    (10000 / 101 : ℚ) ≠ 100 := by
  norm_num [calcRSI, initGL, glStep, rsiGo, rsiVal, List.range_succ,
    List.range']

end Trading
